import Mathlib

/-!
Verification of the `JsonEditor` React component of quickwit-ui
(`src/quickwit-ui/src/components/JsonEditor.tsx`, the "Strategy B" revision
using a deferred `getContentHeight` measurement, and the earlier "Strategy A"
revision in `src/unnamed/part_001` using a per-line pixel constant).

The component is shallowly embedded: the `onMount` callback of each revision
is a pure function from the editor handle to a trace of observable sizing
actions (DOM queries, a height-style write, a `layout()` call, a scheduled
one-shot timer).  JavaScript number semantics relevant to the sizing
arithmetic (`NaN` from `18.81 * undefined`, `Math.min` propagating `NaN`,
`NaN > x` being false) are modelled by `JsNum`.
-/

/-- A JavaScript number as used by the sizing arithmetic: either `NaN`
(arising from arithmetic on `undefined`) or an actual (rational) value. -/
inductive JsNum where
  | nan : JsNum
  | num : ℚ → JsNum
deriving DecidableEq, Repr

/-- JavaScript multiplication: `NaN` is absorbing. -/
def JsNum.mul : JsNum → JsNum → JsNum
  | .num a, .num b => .num (a * b)
  | _, _ => .nan

/-- `Math.min`: returns `NaN` if any argument is `NaN`, else the minimum. -/
def jsMathMin : JsNum → JsNum → JsNum
  | .num a, .num b => .num (min a b)
  | _, _ => .nan

/-- JavaScript strict greater-than: any comparison with `NaN` is false. -/
def JsNum.gtb : JsNum → JsNum → Bool
  | .num a, .num b => decide (b < a)
  | _, _ => false

/-- How a `JsNum` prints inside a template string: `NaN` prints as "NaN",
a numeric value prints as its decimal rendering (kept abstract as `toString`
of the rational; only the `NaN` case is relied upon by the claims). -/
def JsNum.render : JsNum → String
  | .nan => "NaN"
  | .num q => toString q

/-- The template string `${height}px` written into `style.height`. -/
def pxString (h : JsNum) : String :=
  h.render ++ "px"

/-- The text model handle of the editor; `getLineCount()` reports the number
of lines of the currently displayed text. -/
structure ModelHandle where
  getLineCount : ℕ
deriving DecidableEq, Repr

/-- The editor handle passed to `onMount`: `getDomNode()` may be `null`
(modelled as `none`, the element itself abstracted to an identifier),
`getModel()` may be `null`, and `getContentHeight()` reports a pixel
measurement (a JavaScript number). -/
structure EditorHandle where
  getDomNode : Option ℕ
  getModel : Option ModelHandle
  getContentHeight : ℚ
deriving DecidableEq, Repr

/-- Observable actions of the sizing path of `onMount`. -/
inductive SizingEvent where
  | queryDomNode
  | queryModelLineCount
  | queryContentHeight
  | setHeightStyle (h : JsNum)
  | callLayout
deriving DecidableEq, Repr

/-- Result of running an `onMount` callback: the actions performed
synchronously inside the callback, and the optional one-shot timer it
scheduled via `setTimeout` (delay in milliseconds, together with the actions
the deferred callback performs when it fires).  The structure holds no
cancellation handle: the return value of `setTimeout` is discarded by both
revisions. -/
structure MountOutcome where
  syncTrace : List SizingEvent
  timer : Option (ℕ × List SizingEvent)
deriving DecidableEq, Repr

/-- The per-line pixel constant of the Strategy A revision: `18.81`. -/
def perLinePixelHeight : ℚ := 1881 / 100

/-- The result of the optional-chaining expression
`editor.getModel()?.getLineCount()` coerced to a number: `undefined`
(when the model is `null`) behaves as `NaN` under arithmetic. -/
def optChainLineCount : Option ModelHandle → JsNum
  | some m => .num m.getLineCount
  | none => .nan

/-- `onMount` of the Strategy A revision (src/unnamed/part_001, lines
116-132): early return when `resizeOnMount` is false; query the DOM node and
return silently when it is `null`; otherwise compute
`Math.min(800, 18.81 * editor.getModel()?.getLineCount())`, write it into
the element's height style and call `editor.layout()`, all synchronously
(no timer is scheduled). -/
def onMountA (resizeOnMount : Bool) (editor : EditorHandle) : MountOutcome :=
  if !resizeOnMount then ⟨[], none⟩
  else
    match editor.getDomNode with
    | none => ⟨[.queryDomNode], none⟩
    | some _ =>
      let height := jsMathMin (.num 800)
        (JsNum.mul (.num perLinePixelHeight) (optChainLineCount editor.getModel))
      ⟨[.queryDomNode, .queryModelLineCount, .setHeightStyle height, .callLayout], none⟩

/-- `onMount` of the Strategy B revision
(src/quickwit-ui/src/components/JsonEditor.tsx, lines 26-45): early return
when `resizeOnMount` is false; query the DOM node and return silently when it
is `null`; otherwise schedule a one-shot 10 ms timer whose callback reads
`editor.getContentHeight()`, applies `Math.min(800, ·)` to the element's
height style and calls `editor.layout()`.  Nothing is applied synchronously
and no cancellation handle is kept. -/
def onMountB (resizeOnMount : Bool) (editor : EditorHandle) : MountOutcome :=
  if !resizeOnMount then ⟨[], none⟩
  else
    match editor.getDomNode with
    | none => ⟨[.queryDomNode], none⟩
    | some _ =>
      ⟨[.queryDomNode],
        some (10,
          [.queryContentHeight,
           .setHeightStyle (jsMathMin (.num 800) (.num editor.getContentHeight)),
           .callLayout])⟩

/-- All heights written by a mount outcome (synchronous and deferred). -/
def appliedHeights (o : MountOutcome) : List JsNum :=
  (o.syncTrace ++ (o.timer.map Prod.snd).getD []).filterMap fun e =>
    match e with
    | .setHeightStyle h => some h
    | _ => none

/-- State of one hosted component instance together with the captured
container element and the event loop's pending one-shot timer.  Used to model
the Strategy B unmount race. -/
structure ComponentState where
  mounted : Bool
  pendingTimer : Option (ℕ × List SizingEvent)
  elementHeight : Option JsNum
  layoutCount : ℕ
deriving DecidableEq, Repr

/-- Effect of a single sizing event on the captured element and editor. -/
def applyEvent (s : ComponentState) : SizingEvent → ComponentState
  | .setHeightStyle h => { s with elementHeight := some h }
  | .callLayout => { s with layoutCount := s.layoutCount + 1 }
  | _ => s

/-- Mounting the Strategy B component: run the `onMount` callback
synchronously and record the timer it scheduled. -/
def mountBComponent (resizeOnMount : Bool) (editor : EditorHandle) : ComponentState :=
  let o := onMountB resizeOnMount editor
  o.syncTrace.foldl applyEvent
    { mounted := true, pendingTimer := o.timer, elementHeight := none, layoutCount := 0 }

/-- Unmounting the component.  The mount callback discarded the `setTimeout`
return value, so no cancellation is possible: the pending timer survives
teardown untouched. -/
def unmountComponent (s : ComponentState) : ComponentState :=
  { s with mounted := false }

/-- The event loop fires the pending one-shot timer, if any.  The callback
body has no mounted-guard: its actions run against the captured element and
editor regardless of whether the component is still mounted. -/
def fireTimer (s : ComponentState) : ComponentState :=
  match s.pendingTimer with
  | none => s
  | some (_, evs) => evs.foldl applyEvent { s with pendingTimer := none }

/-- A theme descriptor.  Modelled from the spec: the actual `EDITOR_THEME`
payload lives in `src/utils/theme` which is not part of the reviewed sources;
the spec describes it as a static, named style definition (colors, token
rules). -/
structure ThemeDescriptor where
  base : String
  rules : List (String × String)
deriving DecidableEq, Repr

/-- Modelled from the spec: the fixed static style descriptor imported as
`EDITOR_THEME`; its concrete fields are irrelevant, only that it is one fixed
value shared by every mount. -/
def EDITOR_THEME : ThemeDescriptor :=
  ⟨"vs", []⟩

/-- The process-wide monaco theme registry, keyed by theme name. -/
def ThemeRegistry : Type :=
  String → Option ThemeDescriptor

/-- Modelled from the spec: `monaco.editor.defineTheme(name, descriptor)` is
an idempotent upsert into the process-wide theme registry keyed by the theme
name (last registration with a given name wins). -/
def defineTheme (reg : ThemeRegistry) (name : String) (d : ThemeDescriptor) : ThemeRegistry :=
  fun n => if n = name then some d else reg n

/-- The name under which the component registers its theme. -/
def quickwitLight : String :=
  "quickwit-light"

/-- `beforeMount` of both revisions: register the fixed descriptor under the
name `quickwit-light` (JsonEditor.tsx lines 48-50, part_001 lines 134-136). -/
def beforeMount (reg : ThemeRegistry) : ThemeRegistry :=
  defineTheme reg quickwitLight EDITOR_THEME

/-- A concrete editor handle with a DOM node, a 3-line model and a measured
content height of 57 px (used by witnesses). -/
def edSmall : EditorHandle :=
  ⟨some 1, some ⟨3⟩, 57⟩

/-- A concrete editor handle whose `getDomNode()` is `null`. -/
def edNoDom : EditorHandle :=
  ⟨none, some ⟨3⟩, 57⟩

/-- A concrete editor handle with a DOM node but a `null` model, and a huge
measured content height. -/
def edNoModel : EditorHandle :=
  ⟨some 2, none, 9000⟩

/-- Any height produced by clamping through `Math.min(800, ·)` is never
strictly greater than 800 under JavaScript comparison. -/
theorem jsMathMin_not_gt_800 (x : JsNum) :
    (jsMathMin (.num 800) x).gtb (.num 800) = false := by
  cases x with
  | nan => rfl
  | num q =>
    simp [jsMathMin, JsNum.gtb, not_lt]

/-- Claim C1: in the Strategy B revision, for every mount with
`resizeOnMount = true` where the editor reports a DOM node, the height
applied to the container equals `min(800, editor.getContentHeight())`, the
application happens only in the deferred 10 ms timer callback (the
synchronous part of the mount callback performs no height write and no
layout call), and `editor.layout()` is invoked immediately after the height
is applied. -/
theorem strategyB_deferred_min800 (editor : EditorHandle) (n : ℕ)
    (hdom : editor.getDomNode = some n) :
    (onMountB true editor).timer =
      some (10,
        [.queryContentHeight,
         .setHeightStyle (.num (min 800 editor.getContentHeight)),
         .callLayout]) ∧
    (onMountB true editor).syncTrace = [.queryDomNode] := by
  simp [onMountB, hdom, jsMathMin]

/-- Witness for C1 at a concrete editor (dom node present, measured content
height 57 px): the deferred callback applies height 57 and then layout. -/
theorem strategyB_deferred_min800_witness :
    (onMountB true edSmall).timer =
      some (10,
        [.queryContentHeight,
         .setHeightStyle (.num (min 800 (57 : ℚ))),
         .callLayout]) ∧
    (onMountB true edSmall).syncTrace = [.queryDomNode] :=
  strategyB_deferred_min800 edSmall 1 rfl

/-- Claim C3: across both revisions, for every `resizeOnMount` flag and every
editor handle, every height the component writes into the container's height
style is never strictly greater than 800 (under JavaScript comparison, which
in particular is false for `NaN`). -/
theorem applied_height_never_gt_800 (flag : Bool) (editor : EditorHandle) (h : JsNum)
    (hmem : h ∈ appliedHeights (onMountA flag editor) ++ appliedHeights (onMountB flag editor)) :
    h.gtb (.num 800) = false := by
  have key : ∀ o : MountOutcome,
      (∀ h0 ∈ appliedHeights o, ∃ x, h0 = jsMathMin (.num 800) x) →
      h ∈ appliedHeights o → h.gtb (.num 800) = false := by
    intro o ho hm
    obtain ⟨x, hx⟩ := ho h hm
    rw [hx]
    exact jsMathMin_not_gt_800 x
  rcases List.mem_append.mp hmem with hA | hB
  · refine key _ ?_ hA
    intro h0 hm0
    cases flag with
    | false => simp [onMountA, appliedHeights] at hm0
    | true =>
      cases hd : editor.getDomNode with
      | none => simp [onMountA, appliedHeights, hd] at hm0
      | some n =>
        simp [onMountA, appliedHeights, hd] at hm0
        exact ⟨_, hm0⟩
  · refine key _ ?_ hB
    intro h0 hm0
    cases flag with
    | false => simp [onMountB, appliedHeights] at hm0
    | true =>
      cases hd : editor.getDomNode with
      | none => simp [onMountB, appliedHeights, hd] at hm0
      | some n =>
        simp [onMountB, appliedHeights, hd] at hm0
        exact ⟨_, hm0⟩

/-- Witness for C3: a concrete clamped height (the Strategy B write for an
editor measuring 57 px) is not greater than 800. -/
theorem applied_height_never_gt_800_witness :
    JsNum.gtb (.num (min 800 (57 : ℚ))) (.num 800) = false :=
  applied_height_never_gt_800 true edSmall (.num (min 800 (57 : ℚ)))
    (by simp [appliedHeights, onMountA, onMountB, edSmall, jsMathMin])

/-- Claim C4: in both revisions, a mount with `resizeOnMount = false`
performs no sizing action at all: the trace is empty (no DOM query, no
height write, no layout call) and no timer is scheduled, regardless of the
editor and its content. -/
theorem resizeOnMount_false_noop (editor : EditorHandle) :
    onMountA false editor = ⟨[], none⟩ ∧ onMountB false editor = ⟨[], none⟩ := by
  constructor <;> rfl

/-- Claim C6: in both revisions, when `resizeOnMount = true` but the editor
reports no DOM node (`getDomNode()` returns `null`), the sizing step is a
silent no-op: the callback only performs the DOM query and returns without
writing a height, scheduling a timer or calling `layout()` (the embedding is
a total function, so no error is raised). -/
theorem missing_dom_node_noop (editor : EditorHandle)
    (hdom : editor.getDomNode = none) :
    onMountA true editor = ⟨[.queryDomNode], none⟩ ∧
    onMountB true editor = ⟨[.queryDomNode], none⟩ := by
  constructor <;> simp [onMountA, onMountB, hdom]

/-- Witness for C6 at a concrete editor whose DOM node is `null`. -/
theorem missing_dom_node_noop_witness :
    onMountA true edNoDom = ⟨[.queryDomNode], none⟩ ∧
    onMountB true edNoDom = ⟨[.queryDomNode], none⟩ :=
  missing_dom_node_noop edNoDom rfl

/-- Claim C7: theme registration is idempotent: performing the `beforeMount`
registration of `quickwit-light` with the fixed descriptor twice leaves the
registry in exactly the same state as performing it once, for every starting
registry state — so repeated registration from multiple mounted instances
has no observable effect. -/
theorem beforeMount_idempotent (reg : ThemeRegistry) :
    beforeMount (beforeMount reg) = beforeMount reg := by
  funext n
  simp only [beforeMount, defineTheme]
  by_cases hn : n = quickwitLight <;> simp [hn]

/-- Claim C9: in the Strategy B revision, when a mount with
`resizeOnMount = true` and a present DOM node is followed by unmount before
the 10 ms timer fires, the scheduled callback survives teardown (no
cancellation handle was kept) and, when it fires, still writes
`min(800, contentHeight)` into the captured element's height style and
invokes `layout()` on the torn-down instance. -/
theorem strategyB_unmount_race (editor : EditorHandle) (n : ℕ)
    (hdom : editor.getDomNode = some n) :
    (unmountComponent (mountBComponent true editor)).pendingTimer =
      (mountBComponent true editor).pendingTimer ∧
    (unmountComponent (mountBComponent true editor)).pendingTimer ≠ none ∧
    (unmountComponent (mountBComponent true editor)).mounted = false ∧
    (fireTimer (unmountComponent (mountBComponent true editor))).elementHeight =
      some (.num (min 800 editor.getContentHeight)) ∧
    (fireTimer (unmountComponent (mountBComponent true editor))).layoutCount = 1 ∧
    (fireTimer (unmountComponent (mountBComponent true editor))).mounted = false := by
  refine ⟨rfl, ?_, rfl, ?_, ?_, ?_⟩ <;>
    simp [mountBComponent, unmountComponent, fireTimer, onMountB, hdom,
      applyEvent, jsMathMin, List.foldl]

/-- Witness for C9 at a concrete editor: after mount-then-unmount the timer
is still pending, and firing it mutates the captured element (height 57) and
calls layout while the component is unmounted. -/
theorem strategyB_unmount_race_witness :
    (unmountComponent (mountBComponent true edSmall)).pendingTimer =
      (mountBComponent true edSmall).pendingTimer ∧
    (unmountComponent (mountBComponent true edSmall)).pendingTimer ≠ none ∧
    (unmountComponent (mountBComponent true edSmall)).mounted = false ∧
    (fireTimer (unmountComponent (mountBComponent true edSmall))).elementHeight =
      some (.num (min 800 (57 : ℚ))) ∧
    (fireTimer (unmountComponent (mountBComponent true edSmall))).layoutCount = 1 ∧
    (fireTimer (unmountComponent (mountBComponent true edSmall))).mounted = false :=
  strategyB_unmount_race edSmall 1 rfl

/-- Claim C10: in the Strategy A revision, a mount with
`resizeOnMount = true`, a present DOM node but a `null` text model is not
guarded the way the missing-DOM-node case is: `18.81 * undefined` is `NaN`,
`Math.min(800, NaN)` is `NaN`, the string written into the element's height
style is "NaNpx", and `layout()` is still invoked afterwards — the applied
height is not a numeric value at all (in particular not a value ≤ 800). -/
theorem strategyA_null_model_nan (editor : EditorHandle) (n : ℕ)
    (hdom : editor.getDomNode = some n) (hmodel : editor.getModel = none) :
    onMountA true editor =
      ⟨[.queryDomNode, .queryModelLineCount, .setHeightStyle JsNum.nan, .callLayout],
        none⟩ ∧
    pxString JsNum.nan = "NaNpx" ∧
    (∀ q : ℚ, JsNum.nan ≠ JsNum.num q) := by
  refine ⟨?_, rfl, fun q hq => JsNum.noConfusion hq⟩
  simp [onMountA, hdom, hmodel, optChainLineCount, JsNum.mul, jsMathMin]

/-- Witness for C10 at a concrete editor with DOM node and `null` model. -/
theorem strategyA_null_model_nan_witness :
    onMountA true edNoModel =
      ⟨[.queryDomNode, .queryModelLineCount, .setHeightStyle JsNum.nan, .callLayout],
        none⟩ ∧
    pxString JsNum.nan = "NaNpx" ∧
    (∀ q : ℚ, JsNum.nan ≠ JsNum.num q) :=
  strategyA_null_model_nan edNoModel 2 rfl rfl

/-- A JSON-representable value: `null`, booleans, (integral) numbers,
strings, arrays and objects (ordered member lists).  Strings are carried as
character lists. -/
inductive Json where
  | null : Json
  | bool (b : Bool) : Json
  | num (n : ℤ) : Json
  | str (s : List Char) : Json
  | arr (elems : List Json) : Json
  | obj (members : List (List Char × Json)) : Json

/-- Lowercase hexadecimal digit, as emitted by `JSON.stringify` in `\u00xx`
escapes. -/
def hexDigitChar (n : ℕ) : Char :=
  if n < 10 then Char.ofNat (48 + n) else Char.ofNat (87 + n)

/-- Escaping of one character per `JSON.stringify`'s string quoting: quote
and backslash get a backslash escape, the five control characters with short
escapes use them, the remaining control characters become `\u00xx`, and
everything else passes through unchanged. -/
def escapeChar (c : Char) : List Char :=
  if c = '"' then ['\\', '"']
  else if c = '\\' then ['\\', '\\']
  else if c = Char.ofNat 8 then ['\\', 'b']
  else if c = Char.ofNat 12 then ['\\', 'f']
  else if c = '\n' then ['\\', 'n']
  else if c = Char.ofNat 13 then ['\\', 'r']
  else if c = '\t' then ['\\', 't']
  else if c.toNat < 32 then
    ['\\', 'u', '0', '0', hexDigitChar (c.toNat / 16), hexDigitChar (c.toNat % 16)]
  else [c]

/-- Escape a whole string. -/
def escapeList : List Char → List Char
  | [] => []
  | c :: cs => escapeChar c ++ escapeList cs

/-- A JSON string literal: escaped content between double quotes. -/
def quoteString (s : List Char) : List Char :=
  '"' :: (escapeList s ++ ['"'])

/-- Decimal digit character. -/
def digitChar (n : ℕ) : Char :=
  Char.ofNat (48 + n)

/-- Decimal rendering of a natural number (most significant digit first). -/
def natToChars (n : ℕ) : List Char :=
  if _h : n < 10 then [digitChar n]
  else natToChars (n / 10) ++ [digitChar (n % 10)]
termination_by n
decreasing_by exact Nat.div_lt_self (by omega) (by omega)

/-- Decimal rendering of an integer, as `JSON.stringify` renders integral
numbers. -/
def intToChars (n : ℤ) : List Char :=
  if n < 0 then '-' :: natToChars n.natAbs else natToChars n.toNat

/-- Two more spaces of indentation (one nesting level of
`JSON.stringify(v, null, 2)`). -/
def spaces2 (ind : List Char) : List Char :=
  ' ' :: ' ' :: ind

mutual

/-- The text `JSON.stringify(v, null, 2)` produces for a value at the given
accumulated indentation: scalars render inline; non-empty arrays and objects
put every element on its own line indented two spaces deeper, separated by
commas, with the closing bracket on its own line at the parent
indentation. -/
def renderValue (ind : List Char) : Json → List Char
  | .null => ['n', 'u', 'l', 'l']
  | .bool b => if b then ['t', 'r', 'u', 'e'] else ['f', 'a', 'l', 's', 'e']
  | .num n => intToChars n
  | .str s => quoteString s
  | .arr [] => ['[', ']']
  | .arr (v :: vs) =>
      '[' :: '\n' :: (spaces2 ind ++ renderValue (spaces2 ind) v ++
        renderItems (spaces2 ind) vs ++ '\n' :: (ind ++ [']']))
  | .obj [] => ['{', '}']
  | .obj (m :: ms) =>
      '{' :: '\n' :: (spaces2 ind ++ renderMember (spaces2 ind) m ++
        renderMembers (spaces2 ind) ms ++ '\n' :: (ind ++ ['}']))

/-- The remaining array elements, each preceded by `,\n` and the
indentation. -/
def renderItems (ind : List Char) : List Json → List Char
  | [] => []
  | v :: vs => ',' :: '\n' :: (ind ++ renderValue ind v ++ renderItems ind vs)

/-- One object member: quoted key, colon, space, value. -/
def renderMember (ind : List Char) : List Char × Json → List Char
  | (k, v) => quoteString k ++ ':' :: ' ' :: renderValue ind v

/-- The remaining object members, each preceded by `,\n` and the
indentation. -/
def renderMembers (ind : List Char) : List (List Char × Json) → List Char
  | [] => []
  | m :: ms => ',' :: '\n' :: (ind ++ renderMember ind m ++ renderMembers ind ms)

end

/-- Whitespace recognised by `JSON.parse`. -/
def isWsChar (c : Char) : Bool :=
  c = ' ' || c = '\n' || c = '\t' || c = Char.ofNat 13

/-- Drop leading whitespace. -/
def skipWs : List Char → List Char
  | [] => []
  | c :: cs => if isWsChar c then skipWs cs else c :: cs

/-- Decimal digit test. -/
def isDigitChar (c : Char) : Bool :=
  48 ≤ c.toNat && c.toNat ≤ 57

/-- Split off the longest leading run of decimal digits. -/
def takeDigits : List Char → List Char × List Char
  | [] => ([], [])
  | c :: cs =>
    if isDigitChar c then
      let r := takeDigits cs
      (c :: r.1, r.2)
    else ([], c :: cs)

/-- Numeric value of a digit run. -/
def digitsVal (ds : List Char) : ℕ :=
  ds.foldl (fun a c => a * 10 + (c.toNat - 48)) 0

/-- Parse a (non-empty) run of decimal digits. -/
def parseNatChars (cs : List Char) : Option (ℕ × List Char) :=
  match takeDigits cs with
  | (ds, rest) => if ds.isEmpty then none else some (digitsVal ds, rest)

/-- Parse an optionally negated decimal integer. -/
def parseIntChars (cs : List Char) : Option (ℤ × List Char) :=
  match cs with
  | [] => none
  | c :: cs2 =>
    if c = '-' then (parseNatChars cs2).map fun r => (-(r.1 : ℤ), r.2)
    else (parseNatChars cs).map fun r => ((r.1 : ℤ), r.2)

/-- Value of a hexadecimal digit character. -/
def hexVal (c : Char) : Option ℕ :=
  if 48 ≤ c.toNat && c.toNat ≤ 57 then some (c.toNat - 48)
  else if 97 ≤ c.toNat && c.toNat ≤ 102 then some (c.toNat - 87)
  else if 65 ≤ c.toNat && c.toNat ≤ 70 then some (c.toNat - 55)
  else none

/-- Parse the body of a string literal (after the opening quote) up to and
including the closing quote, decoding escape sequences; fuelled by an upper
bound on the number of decoded characters. -/
def parseStrChars : ℕ → List Char → Option (List Char × List Char)
  | 0, _ => none
  | _ + 1, [] => none
  | f + 1, c :: cs =>
    if c = '"' then some ([], cs)
    else if c = '\\' then
      match cs with
      | [] => none
      | e :: cs2 =>
        if e = '"' then (parseStrChars f cs2).map fun r => ('"' :: r.1, r.2)
        else if e = '\\' then (parseStrChars f cs2).map fun r => ('\\' :: r.1, r.2)
        else if e = '/' then (parseStrChars f cs2).map fun r => ('/' :: r.1, r.2)
        else if e = 'b' then (parseStrChars f cs2).map fun r => (Char.ofNat 8 :: r.1, r.2)
        else if e = 'f' then (parseStrChars f cs2).map fun r => (Char.ofNat 12 :: r.1, r.2)
        else if e = 'n' then (parseStrChars f cs2).map fun r => ('\n' :: r.1, r.2)
        else if e = 'r' then (parseStrChars f cs2).map fun r => (Char.ofNat 13 :: r.1, r.2)
        else if e = 't' then (parseStrChars f cs2).map fun r => ('\t' :: r.1, r.2)
        else if e = 'u' then
          match cs2 with
          | h1 :: h2 :: h3 :: h4 :: cs3 =>
            match hexVal h1, hexVal h2, hexVal h3, hexVal h4 with
            | some a, some b, some c2, some d =>
              (parseStrChars f cs3).map fun r =>
                (Char.ofNat (4096 * a + 256 * b + 16 * c2 + d) :: r.1, r.2)
            | _, _, _, _ => none
          | _ => none
        else none
    else (parseStrChars f cs).map fun r => (c :: r.1, r.2)

mutual

/-- Recursive-descent JSON value parser (fuelled).  Skips leading
whitespace, then dispatches on the first character. -/
def parseValue : ℕ → List Char → Option (Json × List Char)
  | 0, _ => none
  | f + 1, cs =>
    match skipWs cs with
    | [] => none
    | c :: cs2 =>
      if c = 'n' then
        if cs2.take 3 = ['u', 'l', 'l'] then some (.null, cs2.drop 3) else none
      else if c = 't' then
        if cs2.take 3 = ['r', 'u', 'e'] then some (.bool true, cs2.drop 3) else none
      else if c = 'f' then
        if cs2.take 4 = ['a', 'l', 's', 'e'] then some (.bool false, cs2.drop 4) else none
      else if c = '"' then
        match parseStrChars (cs2.length + 1) cs2 with
        | none => none
        | some (s, rest) => some (.str s, rest)
      else if c = '[' then
        match skipWs cs2 with
        | [] => none
        | c2 :: cs3 =>
          if c2 = ']' then some (.arr [], cs3)
          else
            match parseItems f (c2 :: cs3) with
            | none => none
            | some (vs, rest) => some (.arr vs, rest)
      else if c = '{' then
        match skipWs cs2 with
        | [] => none
        | c2 :: cs3 =>
          if c2 = '}' then some (.obj [], cs3)
          else
            match parseMembers f (c2 :: cs3) with
            | none => none
            | some (ms, rest) => some (.obj ms, rest)
      else if c = '-' || isDigitChar c then
        match parseIntChars (c :: cs2) with
        | none => none
        | some (n, rest) => some (.num n, rest)
      else none

/-- Parse one or more comma-separated array elements followed by the closing
bracket. -/
def parseItems : ℕ → List Char → Option (List Json × List Char)
  | 0, _ => none
  | f + 1, cs =>
    match parseValue f cs with
    | none => none
    | some (v, rest) =>
      match skipWs rest with
      | [] => none
      | c :: rest2 =>
        if c = ',' then
          match parseItems f rest2 with
          | none => none
          | some (vs, rest3) => some (v :: vs, rest3)
        else if c = ']' then some ([v], rest2)
        else none

/-- Parse one or more comma-separated object members followed by the closing
brace. -/
def parseMembers : ℕ → List Char → Option (List (List Char × Json) × List Char)
  | 0, _ => none
  | f + 1, cs =>
    match skipWs cs with
    | [] => none
    | c :: cs2 =>
      if c = '"' then
        match parseStrChars (cs2.length + 1) cs2 with
        | none => none
        | some (k, rest) =>
          match skipWs rest with
          | [] => none
          | c2 :: rest2 =>
            if c2 = ':' then
              match parseValue f rest2 with
              | none => none
              | some (v, rest3) =>
                match skipWs rest3 with
                | [] => none
                | c3 :: rest4 =>
                  if c3 = ',' then
                    match parseMembers f rest4 with
                    | none => none
                    | some (ms, rest5) => some ((k, v) :: ms, rest5)
                  else if c3 = '}' then some ([(k, v)], rest4)
                  else none
            else none
      else none

end

mutual

/-- Fuel sufficient for `parseValue` to parse this value's rendering. -/
def needFuel : Json → ℕ
  | .null => 1
  | .bool _ => 1
  | .num _ => 1
  | .str _ => 1
  | .arr l => 1 + needItemsFuel l
  | .obj l => 1 + needMembersFuel l

/-- Fuel sufficient for `parseItems` on this element list. -/
def needItemsFuel : List Json → ℕ
  | [] => 1
  | v :: vs => 1 + needFuel v + needItemsFuel vs

/-- Fuel sufficient for `parseMembers` on this member list. -/
def needMembersFuel : List (List Char × Json) → ℕ
  | [] => 1
  | m :: ms => 1 + needFuel m.2 + needMembersFuel ms

end

/-- The serialization of the `content` prop: `JSON.stringify(content, null, 2)`. -/
def jsonStringify (j : Json) : List Char :=
  renderValue [] j

/-- `JSON.parse`: parse a complete document (trailing whitespace allowed,
anything else rejected). -/
def jsonParse (cs : List Char) : Option Json :=
  match parseValue (cs.length + 1) cs with
  | none => none
  | some (j, rest) => if skipWs rest = [] then some j else none

/-- `Char.ofNat` of a small scalar value round-trips through `toNat`. -/
theorem toNat_ofNat_small (n : ℕ) (h : n < 55296) : (Char.ofNat n).toNat = n := by
  unfold Char.ofNat Char.toNat Char.ofNatAux
  rw [dif_pos (Or.inl h)]
  simp [UInt32.toNat, BitVec.toNat_ofNatLt]

theorem digitChar_toNat (d : ℕ) (h : d < 10) : (digitChar d).toNat = 48 + d := by
  unfold digitChar
  exact toNat_ofNat_small _ (by omega)

theorem isDigitChar_digitChar (d : ℕ) (h : d < 10) : isDigitChar (digitChar d) = true := by
  simp [isDigitChar, digitChar_toNat d h]
  omega

theorem hexVal_hexDigitChar (m : ℕ) (h : m < 16) : hexVal (hexDigitChar m) = some m := by
  unfold hexDigitChar hexVal
  by_cases hm : m < 10
  · rw [if_pos hm, toNat_ofNat_small _ (by omega), if_pos (by simp; omega)]
    simp
  · rw [if_neg hm, toNat_ofNat_small _ (by omega), if_neg (by simp; omega),
      if_pos (by simp; omega)]
    simp

/-- Everything a decimal digit character is not. -/
theorem digit_facts (c : Char) (hd : isDigitChar c = true) :
    isWsChar c = false ∧ c ≠ ']' ∧ c ≠ '}' ∧ c ≠ ',' ∧ c ≠ '-' ∧
    c ≠ 'n' ∧ c ≠ 't' ∧ c ≠ 'f' ∧ c ≠ '"' ∧ c ≠ '[' ∧ c ≠ '{' := by
  simp only [isDigitChar, Bool.and_eq_true, decide_eq_true_eq] at hd
  refine ⟨?_, ?_, ?_, ?_, ?_, ?_, ?_, ?_, ?_, ?_, ?_⟩
  · simp only [isWsChar, Bool.or_eq_false_iff, decide_eq_false_iff_not]
    refine ⟨⟨⟨?_, ?_⟩, ?_⟩, ?_⟩ <;> (intro h; rw [h] at hd; revert hd; decide)
  all_goals (intro h; rw [h] at hd; revert hd; decide)

theorem ws_not_digit (c : Char) (hw : isWsChar c = true) : isDigitChar c = false := by
  simp only [isWsChar, Bool.or_eq_true, decide_eq_true_eq] at hw
  rcases hw with ((h | h) | h) | h <;> (rw [h]; decide)

/-- Every character of a list is `JSON.parse` whitespace. -/
def WsList (w : List Char) : Prop :=
  ∀ c ∈ w, isWsChar c = true

theorem wsList_nil : WsList [] := by
  intro c hc
  cases hc

theorem wsList_cons (c : Char) (w : List Char) (hc : isWsChar c = true) (hw : WsList w) :
    WsList (c :: w) := by
  intro d hd
  rcases List.mem_cons.mp hd with h | h
  · rw [h]; exact hc
  · exact hw d h

theorem wsList_spaces2 (ind : List Char) (h : WsList ind) : WsList (spaces2 ind) :=
  wsList_cons _ _ (by decide) (wsList_cons _ _ (by decide) h)

theorem wsList_newline (ind : List Char) (h : WsList ind) : WsList ('\n' :: ind) :=
  wsList_cons _ _ (by decide) h

theorem skipWs_cons_not (c : Char) (cs : List Char) (h : isWsChar c = false) :
    skipWs (c :: cs) = c :: cs := by
  simp [skipWs, h]

theorem skipWs_cons_ws (c : Char) (cs : List Char) (h : isWsChar c = true) :
    skipWs (c :: cs) = skipWs cs := by
  simp [skipWs, h]

theorem skipWs_wsAppend (w : List Char) (hw : WsList w) (cs : List Char) :
    skipWs (w ++ cs) = skipWs cs := by
  induction w with
  | nil => rfl
  | cons c t ih =>
    rw [List.cons_append, skipWs_cons_ws c _ (hw c (List.mem_cons_self c t))]
    exact ih fun d hd => hw d (List.mem_cons_of_mem c hd)

/-- The continuation after a rendered value never starts with a digit (so
number parsing cannot overrun). -/
def restOk : List Char → Prop
  | [] => True
  | c :: _ => isDigitChar c = false

theorem restOk_wsAppend (w : List Char) (hw : WsList w) (c : Char)
    (hc : isDigitChar c = false) (rest : List Char) : restOk (w ++ c :: rest) := by
  cases w with
  | nil => exact hc
  | cons d t => exact ws_not_digit d (hw d (List.mem_cons_self d t))

theorem natToChars_ne_nil (n : ℕ) : natToChars n ≠ [] := by
  rw [natToChars]
  split
  · simp
  · simp

theorem natToChars_digits (n : ℕ) : ∀ c ∈ natToChars n, isDigitChar c = true := by
  induction n using Nat.strong_induction_on with
  | _ n ih =>
    rw [natToChars]
    split
    · intro c hc
      rw [List.mem_singleton.mp hc]
      exact isDigitChar_digitChar n (by omega)
    · intro c hc
      rcases List.mem_append.mp hc with h | h
      · exact ih (n / 10) (Nat.div_lt_self (by omega) (by omega)) c h
      · rw [List.mem_singleton.mp h]
        exact isDigitChar_digitChar _ (Nat.mod_lt _ (by omega))

theorem digitsVal_append_one (ds : List Char) (c : Char) :
    digitsVal (ds ++ [c]) = 10 * digitsVal ds + (c.toNat - 48) := by
  simp [digitsVal, List.foldl_append]
  omega

theorem digitsVal_natToChars (n : ℕ) : digitsVal (natToChars n) = n := by
  induction n using Nat.strong_induction_on with
  | _ n ih =>
    rw [natToChars]
    split
    · rename_i h
      simp [digitsVal, digitChar_toNat n h]
    · rename_i h
      rw [digitsVal_append_one, ih (n / 10) (Nat.div_lt_self (by omega) (by omega)),
        digitChar_toNat _ (Nat.mod_lt _ (by omega))]
      omega

theorem takeDigits_of_digits (ds : List Char) (hds : ∀ c ∈ ds, isDigitChar c = true)
    (rest : List Char) (hr : restOk rest) : takeDigits (ds ++ rest) = (ds, rest) := by
  induction ds with
  | nil =>
    cases rest with
    | nil => rfl
    | cons c t =>
      simp only [List.nil_append, takeDigits]
      rw [if_neg (by rw [hr]; simp)]
  | cons c t ih =>
    simp only [List.cons_append, takeDigits]
    rw [if_pos (hds c (List.mem_cons_self c t))]
    simp only [List.append_eq]
    rw [ih fun d hd => hds d (List.mem_cons_of_mem c hd)]

theorem parseNatChars_spec (n : ℕ) (rest : List Char) (hr : restOk rest) :
    parseNatChars (natToChars n ++ rest) = some (n, rest) := by
  unfold parseNatChars
  rw [takeDigits_of_digits _ (natToChars_digits n) _ hr]
  simp [List.isEmpty_iff, natToChars_ne_nil n, digitsVal_natToChars n]

theorem parseIntChars_spec (n : ℤ) (rest : List Char) (hr : restOk rest) :
    parseIntChars (intToChars n ++ rest) = some (n, rest) := by
  unfold intToChars
  by_cases hn : n < 0
  · rw [if_pos hn]
    simp only [List.cons_append, parseIntChars, if_pos rfl,
      parseNatChars_spec n.natAbs rest hr]
    have hval : -((n.natAbs : ℕ) : ℤ) = n := by omega
    simp [hval]
    rw [abs_of_neg hn, neg_neg]
  · rw [if_neg hn]
    obtain ⟨c, t, hct⟩ := List.exists_cons_of_ne_nil (natToChars_ne_nil n.toNat)
    have hc : isDigitChar c = true := by
      apply natToChars_digits n.toNat
      rw [hct]
      exact List.mem_cons_self c t
    rw [hct]
    simp only [List.cons_append, parseIntChars]
    rw [if_neg (digit_facts c hc).2.2.2.2.1, ← List.cons_append, ← hct,
      parseNatChars_spec n.toNat rest hr]
    have hval : ((n.toNat : ℕ) : ℤ) = n := by omega
    simp [hval]

theorem escapeList_length (s : List Char) : s.length ≤ (escapeList s).length := by
  induction s with
  | nil => simp [escapeList]
  | cons c t ih =>
    simp only [escapeList, List.length_append, List.length_cons]
    have h1 : 1 ≤ (escapeChar c).length := by
      unfold escapeChar
      split_ifs <;> simp
    omega

theorem parseStrChars_spec (s : List Char) :
    ∀ (f : ℕ) (rest : List Char), s.length + 1 ≤ f →
      parseStrChars f (escapeList s ++ ('"' :: rest)) = some (s, rest) := by
  induction s with
  | nil =>
    intro f rest hf
    obtain ⟨g, rfl⟩ : ∃ g, f = g + 1 := ⟨f - 1, by omega⟩
    simp [escapeList, parseStrChars]
  | cons c t ih =>
    intro f rest hf
    obtain ⟨g, rfl⟩ : ∃ g, f = g + 1 := ⟨f - 1, by omega⟩
    have hg : t.length + 1 ≤ g := by
      simp only [List.length_cons] at hf
      omega
    have iht := ih g rest hg
    simp only [escapeList, List.append_assoc]
    unfold escapeChar
    split_ifs with h1 h2 h3 h4 h5 h6 h7 h8
    · subst h1; simp [parseStrChars, iht]
    · subst h2; simp [parseStrChars, iht]
    · subst h3; simp [parseStrChars, iht]
    · subst h4; simp [parseStrChars, iht]
    · subst h5; simp [parseStrChars, iht]
    · subst h6; simp [parseStrChars, iht]
    · subst h7; simp [parseStrChars, iht]
    · have hdiv : c.toNat / 16 < 16 := by omega
      have hmod : c.toNat % 16 < 16 := by omega
      have hchar : Char.ofNat (16 * (c.toNat / 16) + c.toNat % 16) = c := by
        have harith : 16 * (c.toNat / 16) + c.toNat % 16 = c.toNat := by omega
        rw [harith, Char.ofNat_toNat]
      have h0 : hexVal '0' = some 0 := by decide
      simp [parseStrChars, h0,
        hexVal_hexDigitChar _ hdiv, hexVal_hexDigitChar _ hmod, iht, hchar]
    · simp [parseStrChars, h1, h2, iht]

theorem needFuel_pos (j : Json) : 1 ≤ needFuel j := by
  cases j <;> simp [needFuel]

theorem needItemsFuel_lt (l : List Json) (u : Json) (hu : u ∈ l) :
    needFuel u < needItemsFuel l := by
  induction l with
  | nil => cases hu
  | cons v vs ih =>
    rcases List.mem_cons.mp hu with h | h
    · subst h
      simp only [needItemsFuel]
      omega
    · have hlt := ih h
      simp only [needItemsFuel]
      omega

theorem needMembersFuel_lt (l : List (List Char × Json)) (m : List Char × Json)
    (hm : m ∈ l) : needFuel m.2 < needMembersFuel l := by
  induction l with
  | nil => cases hm
  | cons v vs ih =>
    rcases List.mem_cons.mp hm with h | h
    · subst h
      simp only [needMembersFuel]
      omega
    · have hlt := ih h
      simp only [needMembersFuel]
      omega

/-- A rendered value is non-empty and starts with a non-whitespace character
that is neither a closing bracket nor a closing brace. -/
theorem renderValue_head (ind : List Char) (j : Json) :
    ∃ c cs, renderValue ind j = c :: cs ∧ isWsChar c = false ∧
      c ≠ ']' ∧ c ≠ '}' := by
  cases j with
  | null => exact ⟨'n', ['u', 'l', 'l'], by simp [renderValue], by decide, by decide, by decide⟩
  | bool b =>
    cases b with
    | true =>
      exact ⟨'t', ['r', 'u', 'e'], by simp [renderValue], by decide, by decide, by decide⟩
    | false =>
      exact ⟨'f', ['a', 'l', 's', 'e'], by simp [renderValue], by decide, by decide, by decide⟩
  | num n =>
    by_cases hn : n < 0
    · exact ⟨'-', natToChars n.natAbs, by simp [renderValue, intToChars, hn],
        by decide, by decide, by decide⟩
    · obtain ⟨c, t, hct⟩ := List.exists_cons_of_ne_nil (natToChars_ne_nil n.toNat)
      have hc : isDigitChar c = true := by
        apply natToChars_digits n.toNat
        rw [hct]
        exact List.mem_cons_self c t
      obtain ⟨hws, hbr, hbc, _⟩ := digit_facts c hc
      exact ⟨c, t, by simp [renderValue, intToChars, hn, hct], hws, hbr, hbc⟩
  | str s =>
    exact ⟨'"', escapeList s ++ ['"'], by simp [renderValue, quoteString],
      by decide, by decide, by decide⟩
  | arr l =>
    cases l with
    | nil => exact ⟨'[', [']'], by simp [renderValue], by decide, by decide, by decide⟩
    | cons v vs =>
      exact ⟨'[', '\n' :: (spaces2 ind ++ (renderValue (spaces2 ind) v ++
        (renderItems (spaces2 ind) vs ++ '\n' :: (ind ++ [']'])))),
        by simp [renderValue], by decide, by decide, by decide⟩
  | obj l =>
    cases l with
    | nil => exact ⟨'{', ['}'], by simp [renderValue], by decide, by decide, by decide⟩
    | cons m ms =>
      exact ⟨'{', '\n' :: (spaces2 ind ++ (renderMember (spaces2 ind) m ++
        (renderMembers (spaces2 ind) ms ++ '\n' :: (ind ++ ['}'])))),
        by simp [renderValue], by decide, by decide, by decide⟩

theorem parseValue_wsDrop (w : List Char) (hw : WsList w) (f : ℕ) (cs : List Char) :
    parseValue f (w ++ cs) = parseValue f cs := by
  cases f with
  | zero => simp only [parseValue]
  | succ g =>
    simp only [parseValue]
    rw [skipWs_wsAppend w hw cs]

theorem parseItems_wsDrop (w : List Char) (hw : WsList w) (f : ℕ) (cs : List Char) :
    parseItems f (w ++ cs) = parseItems f cs := by
  cases f with
  | zero => simp only [parseItems]
  | succ g =>
    simp only [parseItems]
    rw [parseValue_wsDrop w hw g cs]

theorem parseMembers_wsDrop (w : List Char) (hw : WsList w) (f : ℕ) (cs : List Char) :
    parseMembers f (w ++ cs) = parseMembers f cs := by
  cases f with
  | zero => simp only [parseMembers]
  | succ g =>
    simp only [parseMembers]
    rw [skipWs_wsAppend w hw cs]

/-- One unfolding step of `parseValue` on input with a known non-whitespace
head character. -/
theorem parseValue_succ (g : ℕ) (c : Char) (cs2 : List Char) (hc : isWsChar c = false) :
    parseValue (g + 1) (c :: cs2) =
      (if c = 'n' then
        if cs2.take 3 = ['u', 'l', 'l'] then some (.null, cs2.drop 3) else none
      else if c = 't' then
        if cs2.take 3 = ['r', 'u', 'e'] then some (.bool true, cs2.drop 3) else none
      else if c = 'f' then
        if cs2.take 4 = ['a', 'l', 's', 'e'] then some (.bool false, cs2.drop 4) else none
      else if c = '"' then
        match parseStrChars (cs2.length + 1) cs2 with
        | none => none
        | some (s, rest) => some (.str s, rest)
      else if c = '[' then
        match skipWs cs2 with
        | [] => none
        | c2 :: cs3 =>
          if c2 = ']' then some (.arr [], cs3)
          else
            match parseItems g (c2 :: cs3) with
            | none => none
            | some (vs, rest) => some (.arr vs, rest)
      else if c = '{' then
        match skipWs cs2 with
        | [] => none
        | c2 :: cs3 =>
          if c2 = '}' then some (.obj [], cs3)
          else
            match parseMembers g (c2 :: cs3) with
            | none => none
            | some (ms, rest) => some (.obj ms, rest)
      else if c = '-' || isDigitChar c then
        match parseIntChars (c :: cs2) with
        | none => none
        | some (n, rest) => some (.num n, rest)
      else none) := by
  simp only [parseValue]
  rw [skipWs_cons_not c cs2 hc]

/-- A value parses back from its rendering at any indentation, with any
whitespace-tolerant continuation, given enough fuel. -/
def ParsesBack (j : Json) : Prop :=
  ∀ (f : ℕ) (ind rest : List Char), needFuel j ≤ f → WsList ind → restOk rest →
    parseValue f (renderValue ind j ++ rest) = some (j, rest)

theorem parsesBack_null : ParsesBack .null := by
  intro f ind rest hf hind hrest
  have hf1 : 1 ≤ f := le_trans (needFuel_pos _) hf
  obtain ⟨g, rfl⟩ : ∃ g, f = g + 1 := ⟨f - 1, by omega⟩
  have hr : renderValue ind Json.null ++ rest = 'n' :: ('u' :: 'l' :: 'l' :: rest) := by
    simp [renderValue]
  rw [hr, parseValue_succ g _ _ (by decide), if_pos rfl]
  simp

theorem parsesBack_bool (b : Bool) : ParsesBack (.bool b) := by
  intro f ind rest hf hind hrest
  have hf1 : 1 ≤ f := le_trans (needFuel_pos _) hf
  obtain ⟨g, rfl⟩ : ∃ g, f = g + 1 := ⟨f - 1, by omega⟩
  cases b with
  | true =>
    have hr : renderValue ind (Json.bool true) ++ rest =
        't' :: ('r' :: 'u' :: 'e' :: rest) := by
      simp [renderValue]
    rw [hr, parseValue_succ g _ _ (by decide), if_neg (by decide), if_pos rfl]
    simp
  | false =>
    have hr : renderValue ind (Json.bool false) ++ rest =
        'f' :: ('a' :: 'l' :: 's' :: 'e' :: rest) := by
      simp [renderValue]
    rw [hr, parseValue_succ g _ _ (by decide), if_neg (by decide), if_neg (by decide),
      if_pos rfl]
    simp

theorem parsesBack_num (n : ℤ) : ParsesBack (.num n) := by
  intro f ind rest hf hind hrest
  have hf1 : 1 ≤ f := le_trans (needFuel_pos _) hf
  obtain ⟨g, rfl⟩ : ∃ g, f = g + 1 := ⟨f - 1, by omega⟩
  have hr : renderValue ind (Json.num n) = intToChars n := by simp [renderValue]
  rw [hr]
  by_cases hn : n < 0
  · have hsh : intToChars n ++ rest = '-' :: (natToChars n.natAbs ++ rest) := by
      rw [intToChars, if_pos hn]
      simp
    rw [hsh, parseValue_succ g _ _ (by decide), if_neg (by decide), if_neg (by decide),
      if_neg (by decide), if_neg (by decide), if_neg (by decide), if_neg (by decide),
      if_pos (by decide)]
    rw [← hsh, parseIntChars_spec n rest hrest]
  · obtain ⟨c, t, hct⟩ := List.exists_cons_of_ne_nil (natToChars_ne_nil n.toNat)
    have hc : isDigitChar c = true := by
      apply natToChars_digits n.toNat
      rw [hct]
      exact List.mem_cons_self c t
    obtain ⟨hws, _, _, _, _, hn1, ht1, hf1, hq1, hb1, hc1⟩ := digit_facts c hc
    have hsh : intToChars n ++ rest = c :: (t ++ rest) := by
      rw [intToChars, if_neg hn, hct]
      simp
    rw [hsh, parseValue_succ g _ _ hws, if_neg hn1, if_neg ht1, if_neg hf1, if_neg hq1,
      if_neg hb1, if_neg hc1, if_pos (by simp [hc])]
    rw [← hsh, parseIntChars_spec n rest hrest]

theorem parsesBack_str (s : List Char) : ParsesBack (.str s) := by
  intro f ind rest hf hind hrest
  have hf1 : 1 ≤ f := le_trans (needFuel_pos _) hf
  obtain ⟨g, rfl⟩ : ∃ g, f = g + 1 := ⟨f - 1, by omega⟩
  have hr : renderValue ind (Json.str s) ++ rest =
      '"' :: (escapeList s ++ ('"' :: rest)) := by
    simp [renderValue, quoteString]
  rw [hr, parseValue_succ g _ _ (by decide), if_neg (by decide), if_neg (by decide),
    if_neg (by decide), if_pos rfl]
  have hlen : s.length + 1 ≤ (escapeList s ++ ('"' :: rest)).length + 1 := by
    have := escapeList_length s
    simp only [List.length_append, List.length_cons]
    omega
  rw [parseStrChars_spec s _ rest hlen]

theorem parseValue_wsDropCons (c : Char) (hc : isWsChar c = true) (w : List Char)
    (hw : WsList w) (f : ℕ) (cs : List Char) :
    parseValue f (c :: (w ++ cs)) = parseValue f cs := by
  have h := parseValue_wsDrop (c :: w) (wsList_cons c w hc hw) f cs
  simpa using h

theorem parseItems_wsDropCons (c : Char) (hc : isWsChar c = true) (w : List Char)
    (hw : WsList w) (f : ℕ) (cs : List Char) :
    parseItems f (c :: (w ++ cs)) = parseItems f cs := by
  have h := parseItems_wsDrop (c :: w) (wsList_cons c w hc hw) f cs
  simpa using h

theorem parseMembers_wsDropCons (c : Char) (hc : isWsChar c = true) (w : List Char)
    (hw : WsList w) (f : ℕ) (cs : List Char) :
    parseMembers f (c :: (w ++ cs)) = parseMembers f cs := by
  have h := parseMembers_wsDrop (c :: w) (wsList_cons c w hc hw) f cs
  simpa using h

theorem parseItems_spec (l : List Json) :
    ∀ (v : Json), ParsesBack v → (∀ u ∈ l, ParsesBack u) →
    ∀ (f : ℕ) (ind w rest : List Char),
      1 + needFuel v + needItemsFuel l ≤ f → WsList ind → WsList w → restOk rest →
      parseItems f (renderValue ind v ++ (renderItems ind l ++ (w ++ (']' :: rest)))) =
        some (v :: l, rest) := by
  induction l with
  | nil =>
    intro v hv _ f ind w rest hf hind hw hrest
    simp only [needItemsFuel] at hf
    obtain ⟨g, rfl⟩ : ∃ g, f = g + 1 := ⟨f - 1, by omega⟩
    simp only [parseItems, renderItems, List.nil_append]
    have happ := hv g ind (w ++ (']' :: rest)) (by omega) hind
      (restOk_wsAppend w hw ']' (by decide) rest)
    rw [happ]
    dsimp only
    rw [skipWs_wsAppend w hw, skipWs_cons_not _ _ (by decide)]
    dsimp only
    rw [if_neg (by decide), if_pos rfl]
  | cons u us ih =>
    intro v hv hl f ind w rest hf hind hw hrest
    simp only [needItemsFuel] at hf
    have hvp := needFuel_pos v
    obtain ⟨g, rfl⟩ : ∃ g, f = g + 1 := ⟨f - 1, by omega⟩
    simp only [parseItems, renderItems]
    simp only [List.cons_append, List.append_assoc]
    have hro : restOk (',' :: '\n' :: (ind ++ (renderValue ind u ++
        (renderItems ind us ++ (w ++ (']' :: rest)))))) := by
      simp only [restOk]
      decide
    have happ := hv g ind (',' :: '\n' :: (ind ++ (renderValue ind u ++
      (renderItems ind us ++ (w ++ (']' :: rest)))))) (by omega) hind hro
    rw [happ]
    dsimp only
    rw [skipWs_cons_not _ _ (by decide)]
    dsimp only
    rw [if_pos rfl]
    rw [parseItems_wsDropCons _ (by decide) ind hind]
    have hspec := ih u (hl u (List.mem_cons_self u us))
      (fun x hx => hl x (List.mem_cons_of_mem u hx)) g ind w rest
      (by omega) hind hw hrest
    rw [hspec]

theorem parseValue_wsDropOne (c : Char) (hc : isWsChar c = true) (f : ℕ) (cs : List Char) :
    parseValue f (c :: cs) = parseValue f cs := by
  have h := parseValue_wsDrop [c] (wsList_cons c [] hc wsList_nil) f cs
  simpa using h

theorem parseMembers_spec (l : List (List Char × Json)) :
    ∀ (k : List Char) (v : Json), ParsesBack v → (∀ m ∈ l, ParsesBack m.2) →
    ∀ (f : ℕ) (ind w rest : List Char),
      1 + needFuel v + needMembersFuel l ≤ f → WsList ind → WsList w → restOk rest →
      parseMembers f (renderMember ind (k, v) ++ (renderMembers ind l ++ (w ++ ('}' :: rest)))) =
        some ((k, v) :: l, rest) := by
  induction l with
  | nil =>
    intro k v hv _ f ind w rest hf hind hw hrest
    simp only [needMembersFuel] at hf
    obtain ⟨g, rfl⟩ : ∃ g, f = g + 1 := ⟨f - 1, by omega⟩
    simp only [parseMembers, renderMember, renderMembers, quoteString, List.nil_append,
      List.cons_append, List.append_assoc, List.singleton_append]
    rw [skipWs_cons_not _ _ (by decide)]
    dsimp only
    rw [if_pos rfl]
    have hlen : ∀ X : List Char, k.length + 1 ≤ (escapeList k ++ X).length + 1 := by
      intro X
      have h := escapeList_length k
      simp only [List.length_append]
      omega
    rw [parseStrChars_spec k _ _ (hlen _)]
    dsimp only
    rw [skipWs_cons_not _ _ (by decide)]
    dsimp only
    rw [if_pos rfl]
    rw [parseValue_wsDropOne _ (by decide)]
    have happ := hv g ind (w ++ ('}' :: rest)) (by omega) hind
      (restOk_wsAppend w hw '}' (by decide) rest)
    rw [happ]
    dsimp only
    rw [skipWs_wsAppend w hw, skipWs_cons_not _ _ (by decide)]
    dsimp only
    rw [if_neg (by decide), if_pos rfl]
  | cons m2 ms ih =>
    intro k v hv hl f ind w rest hf hind hw hrest
    obtain ⟨k2, v2⟩ := m2
    simp only [needMembersFuel] at hf
    have hvp := needFuel_pos v
    obtain ⟨g, rfl⟩ : ∃ g, f = g + 1 := ⟨f - 1, by omega⟩
    simp only [parseMembers, renderMember, renderMembers, quoteString, List.nil_append,
      List.cons_append, List.append_assoc, List.singleton_append]
    rw [skipWs_cons_not _ _ (by decide)]
    dsimp only
    rw [if_pos rfl]
    have hlen : ∀ X : List Char, k.length + 1 ≤ (escapeList k ++ X).length + 1 := by
      intro X
      have h := escapeList_length k
      simp only [List.length_append]
      omega
    rw [parseStrChars_spec k _ _ (hlen _)]
    dsimp only
    rw [skipWs_cons_not _ _ (by decide)]
    dsimp only
    rw [if_pos rfl]
    rw [parseValue_wsDropOne _ (by decide)]
    have hro : restOk (',' :: '\n' :: (ind ++ ('"' :: (escapeList k2 ++
        ('"' :: (':' :: (' ' :: (renderValue ind v2 ++
        (renderMembers ind ms ++ (w ++ ('}' :: rest))))))))))) := by
      simp only [restOk]
      decide
    have happ := hv g ind (',' :: '\n' :: (ind ++ ('"' :: (escapeList k2 ++
      ('"' :: (':' :: (' ' :: (renderValue ind v2 ++
      (renderMembers ind ms ++ (w ++ ('}' :: rest))))))))))) (by omega) hind hro
    rw [happ]
    dsimp only
    rw [skipWs_cons_not _ _ (by decide)]
    dsimp only
    rw [if_pos rfl]
    rw [parseMembers_wsDropCons _ (by decide) ind hind]
    have hspec := ih k2 v2 (hl (k2, v2) (List.mem_cons_self _ ms))
      (fun x hx => hl x (List.mem_cons_of_mem _ hx)) g ind w rest
      (by omega) hind hw hrest
    simp only [renderMember, quoteString, List.nil_append, List.cons_append,
      List.append_assoc, List.singleton_append] at hspec
    rw [hspec]

theorem parsesBack_arrNil : ParsesBack (.arr []) := by
  intro f ind rest hf hind hrest
  have hf1 : 1 ≤ f := le_trans (needFuel_pos _) hf
  obtain ⟨g, rfl⟩ : ∃ g, f = g + 1 := ⟨f - 1, by omega⟩
  have hr : renderValue ind (Json.arr []) ++ rest = '[' :: (']' :: rest) := by
    simp [renderValue]
  rw [hr, parseValue_succ g _ _ (by decide), if_neg (by decide), if_neg (by decide),
    if_neg (by decide), if_neg (by decide), if_pos rfl]
  rw [skipWs_cons_not _ _ (by decide)]
  dsimp only
  rw [if_pos rfl]

theorem parsesBack_objNil : ParsesBack (.obj []) := by
  intro f ind rest hf hind hrest
  have hf1 : 1 ≤ f := le_trans (needFuel_pos _) hf
  obtain ⟨g, rfl⟩ : ∃ g, f = g + 1 := ⟨f - 1, by omega⟩
  have hr : renderValue ind (Json.obj []) ++ rest = '{' :: ('}' :: rest) := by
    simp [renderValue]
  rw [hr, parseValue_succ g _ _ (by decide), if_neg (by decide), if_neg (by decide),
    if_neg (by decide), if_neg (by decide), if_neg (by decide), if_pos rfl]
  rw [skipWs_cons_not _ _ (by decide)]
  dsimp only
  rw [if_pos rfl]

/-- Every JSON value parses back from its `JSON.stringify(·, null, 2)`
rendering. -/
theorem parsesBack_all (j : Json) : ParsesBack j := by
  suffices h : ∀ (N : ℕ) (j0 : Json), needFuel j0 ≤ N → ParsesBack j0 from
    h (needFuel j) j le_rfl
  intro N
  induction N using Nat.strong_induction_on with
  | _ N ih =>
    intro j0 hj
    cases j0 with
    | null => exact parsesBack_null
    | bool b => exact parsesBack_bool b
    | num n => exact parsesBack_num n
    | str s => exact parsesBack_str s
    | arr l =>
      cases l with
      | nil => exact parsesBack_arrNil
      | cons v vs =>
        have hlt : ∀ u ∈ v :: vs, needFuel u < N := by
          intro u hu
          have h1 := needItemsFuel_lt (v :: vs) u hu
          simp only [needFuel] at hj
          omega
        have hv : ParsesBack v :=
          ih (needFuel v) (hlt v (List.mem_cons_self v vs)) v le_rfl
        have hvs : ∀ u ∈ vs, ParsesBack u := fun u hu =>
          ih (needFuel u) (hlt u (List.mem_cons_of_mem v hu)) u le_rfl
        intro f ind rest hf hind hrest
        simp only [needFuel, needItemsFuel] at hf
        obtain ⟨g, rfl⟩ : ∃ g, f = g + 1 := ⟨f - 1, by omega⟩
        simp only [renderValue, List.cons_append, List.append_assoc,
          List.singleton_append, List.nil_append]
        rw [parseValue_succ g _ _ (by decide), if_neg (by decide), if_neg (by decide),
          if_neg (by decide), if_neg (by decide), if_pos rfl]
        rw [skipWs_cons_ws _ _ (by decide),
          skipWs_wsAppend (spaces2 ind) (wsList_spaces2 ind hind)]
        obtain ⟨c0, t0, hct, hws0, hbr0, hbc0⟩ := renderValue_head (spaces2 ind) v
        rw [hct, List.cons_append, skipWs_cons_not _ _ hws0]
        dsimp only
        rw [if_neg hbr0]
        rw [← List.cons_append, ← hct]
        have hspec := parseItems_spec vs v hv hvs g (spaces2 ind) ('\n' :: ind) rest
          (by omega) (wsList_spaces2 ind hind) (wsList_newline ind hind) hrest
        simp only [List.cons_append, List.append_assoc] at hspec
        rw [hspec]
    | obj l =>
      cases l with
      | nil => exact parsesBack_objNil
      | cons m ms =>
        obtain ⟨k, v⟩ := m
        have hlt : ∀ u ∈ (k, v) :: ms, needFuel u.2 < N := by
          intro u hu
          have h1 := needMembersFuel_lt ((k, v) :: ms) u hu
          simp only [needFuel] at hj
          omega
        have hv : ParsesBack v :=
          ih (needFuel v) (hlt (k, v) (List.mem_cons_self _ ms)) v le_rfl
        have hms : ∀ u ∈ ms, ParsesBack u.2 := fun u hu =>
          ih (needFuel u.2) (hlt u (List.mem_cons_of_mem _ hu)) u.2 le_rfl
        intro f ind rest hf hind hrest
        simp only [needFuel, needMembersFuel] at hf
        obtain ⟨g, rfl⟩ : ∃ g, f = g + 1 := ⟨f - 1, by omega⟩
        simp only [renderValue, renderMember, quoteString, List.cons_append,
          List.append_assoc, List.singleton_append, List.nil_append]
        rw [parseValue_succ g _ _ (by decide), if_neg (by decide), if_neg (by decide),
          if_neg (by decide), if_neg (by decide), if_neg (by decide), if_pos rfl]
        rw [skipWs_cons_ws _ _ (by decide),
          skipWs_wsAppend (spaces2 ind) (wsList_spaces2 ind hind)]
        rw [skipWs_cons_not _ _ (by decide)]
        dsimp only
        rw [if_neg (by decide)]
        have hspec := parseMembers_spec ms k v hv hms g (spaces2 ind) ('\n' :: ind) rest
          (by omega) (wsList_spaces2 ind hind) (wsList_newline ind hind) hrest
        simp only [renderMember, quoteString, List.cons_append, List.append_assoc,
          List.singleton_append, List.nil_append] at hspec
        rw [hspec]

theorem renderItems_len (l : List Json)
    (h : ∀ u ∈ l, ∀ ind' : List Char, needFuel u ≤ (renderValue ind' u).length + 1) :
    ∀ ind : List Char, needItemsFuel l ≤ (renderItems ind l).length + 1 := by
  induction l with
  | nil =>
    intro ind
    simp [needItemsFuel, renderItems]
  | cons u us ih =>
    intro ind
    have h1 := h u (List.mem_cons_self u us) ind
    have h2 := ih (fun x hx => h x (List.mem_cons_of_mem u hx)) ind
    simp only [needItemsFuel, renderItems, List.length_cons, List.length_append]
    omega

theorem renderMembers_len (l : List (List Char × Json))
    (h : ∀ u ∈ l, ∀ ind' : List Char, needFuel u.2 ≤ (renderValue ind' u.2).length + 1) :
    ∀ ind : List Char, needMembersFuel l ≤ (renderMembers ind l).length + 1 := by
  induction l with
  | nil =>
    intro ind
    simp [needMembersFuel, renderMembers]
  | cons m ms ih =>
    obtain ⟨k, v⟩ := m
    intro ind
    have h1 := h (k, v) (List.mem_cons_self _ ms) ind
    have h2 := ih (fun x hx => h x (List.mem_cons_of_mem _ hx)) ind
    simp only [needMembersFuel, renderMembers, renderMember, quoteString,
      List.length_cons, List.length_append] at *
    omega

/-- The fuel `needFuel` is covered by the length of any rendering (plus one),
so a parser fuelled by the input length succeeds. -/
theorem needFuel_le_len (j : Json) (ind : List Char) :
    needFuel j ≤ (renderValue ind j).length + 1 := by
  suffices h : ∀ (N : ℕ) (j0 : Json), needFuel j0 ≤ N →
      ∀ ind0 : List Char, needFuel j0 ≤ (renderValue ind0 j0).length + 1 from
    h (needFuel j) j le_rfl ind
  intro N
  induction N using Nat.strong_induction_on with
  | _ N ih =>
    intro j0 hj ind0
    cases j0 with
    | null => simp [needFuel]
    | bool b => simp [needFuel]
    | num n => simp [needFuel]
    | str s => simp [needFuel]
    | arr l =>
      cases l with
      | nil => simp [needFuel, needItemsFuel, renderValue]
      | cons v vs =>
        have hel : ∀ u ∈ v :: vs, ∀ ind' : List Char,
            needFuel u ≤ (renderValue ind' u).length + 1 := by
          intro u hu ind'
          have h1 := needItemsFuel_lt (v :: vs) u hu
          simp only [needFuel] at hj
          exact ih (needFuel u) (by omega) u le_rfl ind'
        have hv := hel v (List.mem_cons_self v vs) (spaces2 ind0)
        have hvs := renderItems_len vs
          (fun x hx => hel x (List.mem_cons_of_mem v hx)) (spaces2 ind0)
        have hsp : (spaces2 ind0).length = ind0.length + 2 := by simp [spaces2]
        simp only [needFuel, needItemsFuel, renderValue, List.length_cons,
          List.length_append]
        omega
    | obj l =>
      cases l with
      | nil => simp [needFuel, needMembersFuel, renderValue]
      | cons m ms =>
        obtain ⟨k, v⟩ := m
        have hel : ∀ u ∈ (k, v) :: ms, ∀ ind' : List Char,
            needFuel u.2 ≤ (renderValue ind' u.2).length + 1 := by
          intro u hu ind'
          have h1 := needMembersFuel_lt ((k, v) :: ms) u hu
          simp only [needFuel] at hj
          exact ih (needFuel u.2) (by omega) u.2 le_rfl ind'
        have hv := hel (k, v) (List.mem_cons_self _ ms) (spaces2 ind0)
        have hms := renderMembers_len ms
          (fun x hx => hel x (List.mem_cons_of_mem _ hx)) (spaces2 ind0)
        have hsp : (spaces2 ind0).length = ind0.length + 2 := by simp [spaces2]
        simp only [needFuel, needMembersFuel, renderValue, renderMember, quoteString,
          List.length_cons, List.length_append] at hv hms ⊢
        omega

/-- Round trip: parsing the `JSON.stringify(·, null, 2)` rendering of any
value yields that value back. -/
theorem jsonParse_jsonStringify (j : Json) : jsonParse (jsonStringify j) = some j := by
  unfold jsonParse jsonStringify
  have hp := parsesBack_all j ((renderValue [] j).length + 1) [] []
    (needFuel_le_len j []) wsList_nil trivial
  rw [List.append_nil] at hp
  rw [hp]
  simp [skipWs]

/-- The `content` prop as seen by the serialization step: either a
JSON-representable value, or a value whose serialization throws.  Modelled
from the spec: cyclic structures or values that throw during serialization
are the caller-contract violation the spec describes; they cannot be built
as `Json` values, so they are a separate constructor. -/
inductive ContentValue where
  | representable (j : Json) : ContentValue
  | unserializable : ContentValue

/-- The error message of a serialization failure. -/
def serializationError : String :=
  "TypeError: content is not serializable"

/-- `JSON.stringify(content, null, 2)`: the rendered text, or the thrown
error. -/
def stringifyContent : ContentValue → Except String (List Char)
  | .representable j => .ok (jsonStringify j)
  | .unserializable => .error serializationError

/-- The language tag passed to the editor. -/
def jsonLanguage : String :=
  "json"

/-- The fixed configuration both revisions pass to the `Editor` element
(the subset the claims are about). -/
structure EditorProps where
  language : String
  value : List Char
  theme : String
  readOnly : Bool
  wordWrap : Bool
  minimapEnabled : Bool
deriving DecidableEq, Repr

/-- Rendering the `JsonEditor` component (JsonEditor.tsx lines 52-79,
part_001 lines 138-164): the value prop is computed as
`JSON.stringify(content, null, 2)` with no surrounding try/catch, so a
serialization failure propagates out of the component; on success the editor
is configured read-only, word-wrapped, without minimap, with the JSON
language and the `quickwit-light` theme. -/
def renderJsonEditor (content : ContentValue) : Except String EditorProps :=
  match stringifyContent content with
  | .error e => .error e
  | .ok text =>
    .ok { language := jsonLanguage, value := text, theme := quickwitLight,
          readOnly := true, wordWrap := true, minimapEnabled := false }

/-- The newline character. -/
def newlineChar : Char :=
  '\n'

/-- The number of lines of the pretty-printed serialization of a value
(what the editor model's `getLineCount()` reports for it). -/
def renderedLineCount (j : Json) : ℕ :=
  (jsonStringify j).count newlineChar + 1

/-- A concrete editor handle whose model displays the serialization of
a given content value (used by witnesses). -/
def edForContent (c : Json) : EditorHandle :=
  ⟨some 3, some ⟨renderedLineCount c⟩, 100⟩

/-- Claim C2: in the Strategy A revision, a mount with
`resizeOnMount = true`, a present DOM node and a model holding content whose
pretty-printed serialization has `L` lines applies, synchronously inside the
mount callback (no timer is scheduled), the height
`min(800, 18.81 × L)` to the container element and then calls
`editor.layout()`. -/
theorem strategyA_sync_min800_lines (content : Json) (editor : EditorHandle) (n : ℕ)
    (hdom : editor.getDomNode = some n)
    (hmodel : editor.getModel = some ⟨renderedLineCount content⟩) :
    onMountA true editor =
      ⟨[.queryDomNode, .queryModelLineCount,
        .setHeightStyle
          (.num (min 800 (perLinePixelHeight * (renderedLineCount content : ℚ)))),
        .callLayout], none⟩ := by
  simp [onMountA, hdom, hmodel, optChainLineCount, JsNum.mul, jsMathMin]

/-- Witness for C2 at the concrete content `{}` (a one-line document). -/
theorem strategyA_sync_min800_lines_witness :
    onMountA true (edForContent (Json.obj [])) =
      ⟨[.queryDomNode, .queryModelLineCount,
        .setHeightStyle
          (.num (min 800 (perLinePixelHeight * (renderedLineCount (Json.obj []) : ℚ)))),
        .callLayout], none⟩ :=
  strategyA_sync_min800_lines (Json.obj []) (edForContent (Json.obj [])) 3 rfl rfl

/-- Claim C5: for every JSON-representable content value, the text the
component passes to the editor widget equals
`JSON.stringify(content, null, 2)` (2-space indentation, as produced by
`jsonStringify`), and parsing that text back as JSON yields the original
content value (render/parse round trip). -/
theorem json_text_roundtrip (content : Json) :
    renderJsonEditor (.representable content) =
      .ok { language := jsonLanguage, value := jsonStringify content,
            theme := quickwitLight, readOnly := true, wordWrap := true,
            minimapEnabled := false } ∧
    jsonParse (jsonStringify content) = some content :=
  ⟨rfl, jsonParse_jsonStringify content⟩

/-- Claim C8: a serialization failure is not caught by the component: the
error raised by `JSON.stringify` propagates out unchanged, and no fallback
rendering is produced. -/
theorem serialization_error_propagates (content : ContentValue) (e : String)
    (h : stringifyContent content = .error e) :
    renderJsonEditor content = .error e ∧
    ∀ p : EditorProps, renderJsonEditor content ≠ .ok p := by
  constructor
  · unfold renderJsonEditor
    rw [h]
  · intro p hp
    unfold renderJsonEditor at hp
    rw [h] at hp
    exact Except.noConfusion hp

/-- Witness for C8 at a concrete unserializable content value. -/
theorem serialization_error_propagates_witness :
    renderJsonEditor .unserializable = .error serializationError ∧
    ∀ p : EditorProps, renderJsonEditor .unserializable ≠ .ok p :=
  serialization_error_propagates .unserializable serializationError rfl
